import Mathlib

/-!
Shallow embedding of the Understanding-PyTorch tutorial repository: the
synthetic-data generator, the train/validation splitter, the mini-batch
loader, and the gradient-descent trainer for the one-feature linear model
y = a + b*x.  Exact rational arithmetic stands in for the floating-point
arithmetic of the notebooks; real-valued copies of the loss are used where
a claim speaks about derivatives.
-/

/-- A batch of samples: ordered pairs (feature x, label y). -/
abbrev Batch := List (ℚ × ℚ)

/-- NumPy-style mean of a list of rationals (`arr.mean()`); the empty mean
is 0 here (division by zero in ℚ). -/
def mean (l : List ℚ) : ℚ := l.sum / (l.length : ℚ)

/-- The model prediction `yhat = a + b * x` from the training loop. -/
def yhat (a b x : ℚ) : ℚ := a + b * x

/-- The elementwise residual `error = y_train - yhat` of the training loop. -/
def errorOf (a b : ℚ) (B : Batch) : List ℚ :=
  B.map fun p => p.2 - yhat a b p.1

/-- The loss `(error ** 2).mean()` of the training loop (mean squared error). -/
def loss (a b : ℚ) (B : Batch) : ℚ :=
  mean ((errorOf a b B).map fun e => e ^ 2)

/-- The analytic gradient `a_grad = -2 * error.mean()` of the training loop. -/
def a_grad (a b : ℚ) (B : Batch) : ℚ := -2 * mean (errorOf a b B)

/-- The analytic gradient `b_grad = -2 * (x_train * error).mean()` of the
training loop. -/
def b_grad (a b : ℚ) (B : Batch) : ℚ :=
  -2 * mean (B.map fun p => p.1 * (p.2 - yhat a b p.1))

/-- The batch loss `mean((y - a - b*x)^2)` as a real function of the
intercept parameter (slope fixed), for stating that `a_grad` is its exact
partial derivative. -/
noncomputable def lossRealA (B : Batch) (b : ℝ) (t : ℝ) : ℝ :=
  (B.map fun p => ((p.2 : ℝ) - (t + b * (p.1 : ℝ))) ^ 2).sum / (B.length : ℝ)

/-- The batch loss `mean((y - a - b*x)^2)` as a real function of the slope
parameter (intercept fixed), for stating that `b_grad` is its exact partial
derivative. -/
noncomputable def lossRealB (B : Batch) (a : ℝ) (t : ℝ) : ℝ :=
  (B.map fun p => ((p.2 : ℝ) - (a + t * (p.1 : ℝ))) ^ 2).sum / (B.length : ℝ)

-- ### Autograd model (dual numbers)

/-- Modelled from the spec: the automatic-differentiation engine invoked by
`loss.backward()` in the autograd notebook is library code not present in
this repository; it is represented here by exact dual-number
differentiation of the same computation graph
(`yhat = a + b * x; error = y - yhat; loss = (error ** 2).mean()`). -/
structure Dual where
  val : ℚ
  der : ℚ

/-- Dual-number addition (sum rule). -/
def Dual.add (u v : Dual) : Dual := ⟨u.val + v.val, u.der + v.der⟩

/-- Dual-number subtraction (difference rule). -/
def Dual.sub (u v : Dual) : Dual := ⟨u.val - v.val, u.der - v.der⟩

/-- Dual-number multiplication (product rule). -/
def Dual.mul (u v : Dual) : Dual :=
  ⟨u.val * v.val, u.der * v.val + u.val * v.der⟩

/-- A constant lifted into dual numbers (derivative 0). -/
def Dual.const (c : ℚ) : Dual := ⟨c, 0⟩

/-- Dual-number squaring, for `error ** 2`. -/
def Dual.sq (u : Dual) : Dual := u.mul u

/-- Dual-number mean, for `.mean()`: the mean is linear, so its derivative
is the mean of the derivatives. -/
def Dual.listMean (l : List Dual) : Dual :=
  ⟨mean (l.map Dual.val), mean (l.map Dual.der)⟩

/-- The MSE loss of the autograd notebook evaluated on dual numbers:
`yhat = a + b * x; error = y - yhat; loss = (error ** 2).mean()`. -/
def lossDual (aD bD : Dual) (B : Batch) : Dual :=
  Dual.listMean (B.map fun p =>
    Dual.sq ((Dual.const p.2).sub (aD.add (bD.mul (Dual.const p.1)))))

/-- The gradient `a.grad` produced by `loss.backward()`: differentiate the
loss graph with respect to `a` (seed derivative 1 on `a`, 0 on `b`). -/
def autograd_a (a b : ℚ) (B : Batch) : ℚ := (lossDual ⟨a, 1⟩ ⟨b, 0⟩ B).der

/-- The gradient `b.grad` produced by `loss.backward()`: differentiate the
loss graph with respect to `b` (seed derivative 0 on `a`, 1 on `b`). -/
def autograd_b (a b : ℚ) (B : Batch) : ℚ := (lossDual ⟨a, 0⟩ ⟨b, 1⟩ B).der

/-- One parameter update of the NumPy loop:
`a = a - lr * a_grad; b = b - lr * b_grad`. -/
def numpyStep (lr a b : ℚ) (B : Batch) : ℚ × ℚ :=
  (a - lr * a_grad a b B, b - lr * b_grad a b B)

/-- One parameter update of the autograd loop:
`a -= lr * a.grad; b -= lr * b.grad` after `loss.backward()`. -/
def autogradStep (lr a b : ℚ) (B : Batch) : ℚ × ℚ :=
  (a - lr * autograd_a a b B, b - lr * autograd_b a b B)

-- ### Splitter

/-- The index split of the data-generation cell: after shuffling, the first
`k` indices go to training (`train_idx = idx[:k]`) and the rest to
validation (`val_idx = idx[k:]`). -/
def splitIndices (perm : List ℕ) (k : ℕ) : List ℕ × List ℕ :=
  (perm.take k, perm.drop k)

-- ### Batcher

/-- Modelled from the spec: the DataLoader construction in the notebook
delegates mini-batch slicing to library code not present in this
repository; per the spec a pass yields consecutive batches of
`batch_size` samples with the remainder in the final batch. -/
def toBatches {α : Type} (b : ℕ) (l : List α) : List (List α) :=
  if h : l.length = 0 ∨ b = 0 then []
  else l.take b :: toBatches b (l.drop b)
termination_by l.length
decreasing_by
  simp only [not_or] at h
  rw [List.length_drop]
  omega

/-- Modelled from the spec: the Batcher contract `iterate`; the DataLoader
rejects a non-positive `batch_size` with an InvalidArgument error,
reported synchronously, and otherwise yields the batches of one pass. -/
def iterate (indices : List ℕ) (batch_size : ℤ) :
    Except String (List (List ℕ)) :=
  if batch_size ≤ 0 then Except.error "InvalidArgument"
  else Except.ok (toBatches batch_size.toNat indices)

-- ### Trainer state

/-- The mutable state of the training loop: the two parameters and the two
append-only loss histories. -/
structure TState where
  a : ℚ
  b : ℚ
  trainLosses : List ℚ
  valLosses : List ℚ

/-- One training step on one mini-batch: compute the loss, the analytic
gradients, and update both parameters atomically, appending the loss to
the train-loss history. -/
def trainStep (lr : ℚ) (s : TState) (B : Batch) : TState :=
  { s with
    a := s.a - lr * a_grad s.a s.b B
    b := s.b - lr * b_grad s.a s.b B
    trainLosses := s.trainLosses ++ [loss s.a s.b B] }

/-- One training epoch: fold the training step over the mini-batches. -/
def epochTrain (lr : ℚ) (batches : List Batch) (s : TState) : TState :=
  batches.foldl (trainStep lr) s

/-- One validation step on one batch (inside `torch.no_grad()`): compute
`yhat` and the loss and append it to the val-loss history; no gradient,
no parameter update. -/
def valStep (s : TState) (B : Batch) : TState :=
  { s with valLosses := s.valLosses ++ [loss s.a s.b B] }

/-- One validation epoch: fold the validation step over the validation
batches in fixed order. -/
def epochValidate (batches : List Batch) (s : TState) : TState :=
  batches.foldl valStep s

-- ### Data generator

/-- Modelled from the spec: NumPy's seeded global pseudo-random source
(`np.random.seed` / `rand` / `randn`) is library code not present in this
repository; it is represented by a deterministic linear congruential
generator threaded through an explicit global state. -/
structure RngState where
  state : ℕ

/-- One step of the linear congruential generator standing in for the
NumPy global stream. -/
def lcg (s : ℕ) : ℕ :=
  (6364136223846793005 * s + 1442695040888963407) % 2 ^ 64

/-- `np.random.seed(seed)`: reset the global stream to a state that is a
function of the seed alone, discarding whatever state was there before. -/
def npSeed (seed : ℕ) : RngState := ⟨seed % 2 ^ 64⟩

/-- Draw one uniform value in [0, 1) from the stream (`np.random.rand`). -/
def nextUniform (g : RngState) : ℚ × RngState :=
  let s := lcg g.state
  (((s % 2 ^ 53 : ℕ) : ℚ) / ((2 ^ 53 : ℕ) : ℚ), ⟨s⟩)

/-- Draw one standard-normal stand-in value from the stream
(`np.random.randn`); a deterministic rational surrogate for the normal
draw, which is all the determinism claim needs. -/
def nextNormal (g : RngState) : ℚ × RngState :=
  let s := lcg g.state
  (((s % 2 ^ 53 : ℕ) : ℚ) / ((2 ^ 52 : ℕ) : ℚ) - 1, ⟨s⟩)

/-- Draw `k` values from the stream with a given draw function, threading
the state. -/
def randList (k : ℕ) (g : RngState) (f : RngState → ℚ × RngState) :
    List ℚ × RngState :=
  match k with
  | 0 => ([], g)
  | k + 1 =>
      let (v, g1) := f g
      let (rest, g2) := randList k g1 f
      (v :: rest, g2)

/-- The data-generation cell as the spec's `generate` contract:
`np.random.seed(seed); x = rand(n); y = true_intercept + true_slope * x
+ noise_std * randn(n)`.  Takes the prior global RNG state and returns the
generated features and labels together with the new global state. -/
def generate (prior : RngState) (seed n : ℕ) (ti ts ns : ℚ) :
    (List ℚ × List ℚ) × RngState :=
  let g0 := npSeed seed
  let (xs, g1) := randList n g0 nextUniform
  let (es, g2) := randList n g1 nextNormal
  ((xs, List.zipWith (fun x e => ti + ts * x + ns * e) xs es), g2)

-- ### Datasets

/-- The notebook's `CustomDataset`: stores the two tensors; `__getitem__`
returns `(self.x[index], self.y[index])`; `__len__` returns `len(self.x)`.
Out-of-range indexing is an error, rendered as `none`. -/
structure CustomDataset where
  x : List ℚ
  y : List ℚ

/-- `CustomDataset.__getitem__`. -/
def CustomDataset.getItem (d : CustomDataset) (i : ℕ) : Option (ℚ × ℚ) :=
  match d.x.get? i, d.y.get? i with
  | some xv, some yv => some (xv, yv)
  | _, _ => none

/-- `CustomDataset.__len__`. -/
def CustomDataset.len (d : CustomDataset) : ℕ := d.x.length

/-- Modelled from the spec: PyTorch's library `TensorDataset` is not part
of this repository; per its documented behaviour it indexes every stored
tensor at the requested position and reports the first tensor's length. -/
structure TensorDataset where
  x : List ℚ
  y : List ℚ

/-- `TensorDataset.__getitem__`. -/
def TensorDataset.getItem (d : TensorDataset) (i : ℕ) : Option (ℚ × ℚ) :=
  (d.x.get? i).bind fun xv => (d.y.get? i).map fun yv => (xv, yv)

/-- `TensorDataset.__len__`. -/
def TensorDataset.len (d : TensorDataset) : ℕ := d.x.length

-- ### Helper lemmas

/-- Casting the residual sum of the training loop into ℝ. -/
theorem cast_error_sum (a b : ℚ) (B : Batch) :
    (((B.map fun p => p.2 - yhat a b p.1).sum : ℚ) : ℝ) =
    (B.map fun p => (p.2 : ℝ) - ((a : ℝ) + (b : ℝ) * (p.1 : ℝ))).sum := by
  induction B with
  | nil => simp
  | cons p t ih =>
      simp only [List.map_cons, List.sum_cons]
      push_cast [yhat] at ih ⊢
      rw [ih]

/-- Casting the feature-weighted residual sum of the training loop into ℝ. -/
theorem cast_xerror_sum (a b : ℚ) (B : Batch) :
    (((B.map fun p => p.1 * (p.2 - yhat a b p.1)).sum : ℚ) : ℝ) =
    (B.map fun p =>
      (p.1 : ℝ) * ((p.2 : ℝ) - ((a : ℝ) + (b : ℝ) * (p.1 : ℝ)))).sum := by
  induction B with
  | nil => simp
  | cons p t ih =>
      simp only [List.map_cons, List.sum_cons]
      push_cast [yhat] at ih ⊢
      rw [ih]

/-- Casting the squared-residual sum of the training loop into ℝ. -/
theorem cast_sq_sum (a b : ℚ) (B : Batch) :
    ((((errorOf a b B).map fun e => e ^ 2).sum : ℚ) : ℝ) =
    (B.map fun p => ((p.2 : ℝ) - ((a : ℝ) + (b : ℝ) * (p.1 : ℝ))) ^ 2).sum := by
  induction B with
  | nil => simp [errorOf]
  | cons p t ih =>
      simp only [errorOf, List.map_cons, List.sum_cons] at ih ⊢
      push_cast [yhat] at ih ⊢
      rw [ih]

/-- Derivative of a finite list-indexed sum of real functions. -/
theorem hasDerivAt_list_sum {α : Type} (l : List α) (f : α → ℝ → ℝ)
    (d : α → ℝ) (t : ℝ) (h : ∀ p ∈ l, HasDerivAt (f p) (d p) t) :
    HasDerivAt (fun s => (l.map fun p => f p s).sum) ((l.map d).sum) t := by
  induction l with
  | nil => simpa using hasDerivAt_const t (0 : ℝ)
  | cons p tl ih =>
      simp only [List.map_cons, List.sum_cons]
      exact (h p (by simp)).add (ih fun q hq => h q (by simp [hq]))

/-- C1: for every batch and every parameter pair, the analytic gradients
`a_grad = -2*mean(error)` and `b_grad = -2*mean(x*error)` of the NumPy
training loop are exactly the partial derivatives of the batch loss
`mean((y - a - b*x)^2)` with respect to `a` and `b`; the real-valued loss
being differentiated agrees with the loop's rational `loss` at the point. -/
theorem c1_gradients_are_exact_partials (B : Batch) (a b : ℚ) :
    HasDerivAt (lossRealA B (b : ℝ)) ((a_grad a b B : ℚ) : ℝ) ((a : ℚ) : ℝ) ∧
    HasDerivAt (lossRealB B (a : ℝ)) ((b_grad a b B : ℚ) : ℝ) ((b : ℚ) : ℝ) ∧
    lossRealA B (b : ℝ) ((a : ℚ) : ℝ) = ((loss a b B : ℚ) : ℝ) ∧
    lossRealB B (a : ℝ) ((b : ℚ) : ℝ) = ((loss a b B : ℚ) : ℝ) := by
  refine ⟨?_, ?_, ?_, ?_⟩
  · unfold lossRealA
    have hterm : ∀ p ∈ B, HasDerivAt
        (fun t : ℝ => ((p.2 : ℝ) - (t + (b : ℝ) * (p.1 : ℝ))) ^ 2)
        ((2 : ℝ) * ((p.2 : ℝ) - ((a : ℝ) + (b : ℝ) * (p.1 : ℝ))) ^ 1 * (-1))
        ((a : ℚ) : ℝ) := by
      intro p _
      exact (((hasDerivAt_id ((a : ℚ) : ℝ)).add_const
        ((b : ℝ) * (p.1 : ℝ))).const_sub (p.2 : ℝ)).pow 2
    have hsum := (hasDerivAt_list_sum B _ _ _ hterm).div_const (B.length : ℝ)
    convert hsum using 1
    have hmap : (B.map fun p =>
        (2 : ℝ) * ((p.2 : ℝ) - ((a : ℝ) + (b : ℝ) * (p.1 : ℝ))) ^ 1 * (-1)) =
        B.map fun p =>
          (-2 : ℝ) * ((p.2 : ℝ) - ((a : ℝ) + (b : ℝ) * (p.1 : ℝ))) := by
      refine List.map_congr_left fun p _ => by ring
    rw [hmap, List.sum_map_mul_left]
    unfold a_grad mean errorOf
    rw [Rat.cast_mul, Rat.cast_div, cast_error_sum, List.length_map,
      Rat.cast_natCast]
    push_cast
    ring
  · unfold lossRealB
    have hterm : ∀ p ∈ B, HasDerivAt
        (fun t : ℝ => ((p.2 : ℝ) - ((a : ℝ) + t * (p.1 : ℝ))) ^ 2)
        ((2 : ℝ) * ((p.2 : ℝ) - ((a : ℝ) + (b : ℝ) * (p.1 : ℝ))) ^ 1 *
          (-(p.1 : ℝ))) ((b : ℚ) : ℝ) := by
      intro p _
      have hlin : HasDerivAt (fun t : ℝ => (a : ℝ) + t * (p.1 : ℝ))
          ((p.1 : ℝ)) ((b : ℚ) : ℝ) := by
        simpa using ((hasDerivAt_id ((b : ℚ) : ℝ)).mul_const (p.1 : ℝ)).const_add (a : ℝ)
      exact (hlin.const_sub (p.2 : ℝ)).pow 2
    have hsum := (hasDerivAt_list_sum B _ _ _ hterm).div_const (B.length : ℝ)
    convert hsum using 1
    have hmap : (B.map fun p =>
        (2 : ℝ) * ((p.2 : ℝ) - ((a : ℝ) + (b : ℝ) * (p.1 : ℝ))) ^ 1 *
          (-(p.1 : ℝ))) =
        B.map fun p =>
          (-2 : ℝ) * ((p.1 : ℝ) * ((p.2 : ℝ) - ((a : ℝ) + (b : ℝ) * (p.1 : ℝ)))) := by
      refine List.map_congr_left fun p _ => by ring
    rw [hmap, List.sum_map_mul_left]
    unfold b_grad mean
    rw [Rat.cast_mul, Rat.cast_div, cast_xerror_sum, List.length_map,
      Rat.cast_natCast]
    push_cast
    ring
  · unfold lossRealA loss mean
    rw [Rat.cast_div, cast_sq_sum, List.length_map]
    unfold errorOf
    rw [List.length_map, Rat.cast_natCast]
  · unfold lossRealB loss mean
    rw [Rat.cast_div, cast_sq_sum, List.length_map]
    unfold errorOf
    rw [List.length_map, Rat.cast_natCast]

-- ### Batcher lemmas

/-- Unfolding `toBatches` in the empty or zero-batch-size case. -/
theorem toBatches_nil_or_zero {α : Type} (b : ℕ) (l : List α)
    (h : l.length = 0 ∨ b = 0) : toBatches b l = [] := by
  rw [toBatches.eq_def, dif_pos h]

/-- Unfolding `toBatches` in the productive case. -/
theorem toBatches_cons {α : Type} (b : ℕ) (l : List α)
    (hb : b ≠ 0) (hl : l ≠ []) :
    toBatches b l = l.take b :: toBatches b (l.drop b) := by
  conv_lhs => rw [toBatches.eq_def]
  rw [dif_neg (by simp [List.length_eq_zero, hl, hb])]

/-- Concatenating the batches of one pass gives back the input list. -/
theorem toBatches_flatten {α : Type} (b : ℕ) (hb : b ≠ 0) (l : List α) :
    (toBatches b l).flatten = l := by
  by_cases hl : l = []
  · subst hl
    rw [toBatches_nil_or_zero b ([] : List α) (Or.inl rfl)]
    rfl
  · rw [toBatches_cons b l hb hl, List.flatten_cons,
      toBatches_flatten b hb (l.drop b), List.take_append_drop]
termination_by l.length
decreasing_by
  rw [List.length_drop]
  have hn : l.length ≠ 0 := fun hz => hl (List.length_eq_zero.mp hz)
  omega

/-- The number of batches in one pass is the ceiling of `n / b`. -/
theorem toBatches_length {α : Type} (b : ℕ) (hb : b ≠ 0) (l : List α) :
    (toBatches b l).length = (l.length + b - 1) / b := by
  by_cases hl : l = []
  · subst hl
    rw [toBatches_nil_or_zero b ([] : List α) (Or.inl rfl)]
    simp only [List.length_nil]
    rw [Nat.div_eq_of_lt (by omega)]
  · rw [toBatches_cons b l hb hl]
    simp only [List.length_cons]
    rw [toBatches_length b hb (l.drop b), List.length_drop]
    have hn : l.length ≠ 0 := fun hz => hl (List.length_eq_zero.mp hz)
    have key : l.length + b - 1 = l.length - 1 + b := by omega
    rw [key, Nat.add_div_right _ (Nat.pos_of_ne_zero hb)]
    rcases le_or_lt l.length b with hc | hc
    · have h1 : l.length - b = 0 := by omega
      rw [h1]
      have h2 : 0 + b - 1 = b - 1 := by omega
      rw [h2, Nat.div_eq_of_lt (by omega), Nat.div_eq_of_lt (by omega)]
    · have h1 : l.length - b + b - 1 = l.length - 1 := by omega
      rw [h1]
termination_by l.length
decreasing_by
  rw [List.length_drop]
  have hn : l.length ≠ 0 := fun hz => hl (List.length_eq_zero.mp hz)
  omega

/-- Every batch before the last one has exactly `b` samples. -/
theorem toBatches_middle {α : Type} (b : ℕ) (hb : b ≠ 0) (l : List α) :
    ∀ c ∈ (toBatches b l).dropLast, c.length = b := by
  by_cases hl : l = []
  · subst hl
    rw [toBatches_nil_or_zero b ([] : List α) (Or.inl rfl)]
    intro c hc
    cases hc
  · rw [toBatches_cons b l hb hl]
    by_cases hd : l.drop b = []
    · rw [hd, toBatches_nil_or_zero b ([] : List α) (Or.inl rfl)]
      intro c hc
      cases hc
    · have hdn : (l.drop b).length ≠ 0 :=
        fun hz => hd (List.length_eq_zero.mp hz)
      have hblt : b < l.length := by
        have := List.length_drop b l
        omega
      have hmid := toBatches_middle b hb (l.drop b)
      rcases ht : toBatches b (l.drop b) with _ | ⟨c0, cs⟩
      · exact absurd ht (by
          rw [toBatches_cons b (l.drop b) hb hd]
          exact fun hx => List.cons_ne_nil _ _ hx)
      · rw [List.dropLast_cons₂]
        rw [ht] at hmid
        intro c hc
        rcases List.mem_cons.mp hc with hh | hh
        · subst hh
          rw [List.length_take]
          omega
        · exact hmid c hh
termination_by l.length
decreasing_by
  rw [List.length_drop]
  have hn : l.length ≠ 0 := fun hz => hl (List.length_eq_zero.mp hz)
  omega

/-- The final batch holds the remainder: `n mod b` samples, or `b` when
`b` divides `n` evenly; there is no final batch when the input is empty. -/
theorem toBatches_last {α : Type} (b : ℕ) (hb : b ≠ 0) (l : List α) :
    (toBatches b l).getLast?.map List.length =
      if l.length = 0 then none
      else if l.length % b = 0 then some b else some (l.length % b) := by
  by_cases hl : l = []
  · subst hl
    rw [toBatches_nil_or_zero b ([] : List α) (Or.inl rfl)]
    rfl
  · have hn : l.length ≠ 0 := fun hz => hl (List.length_eq_zero.mp hz)
    rw [toBatches_cons b l hb hl, if_neg hn]
    by_cases hd : l.drop b = []
    · have hle : l.length ≤ b := by
        have h1 := List.length_drop b l
        have h2 : (l.drop b).length = 0 := by rw [hd]; rfl
        omega
      rw [hd, toBatches_nil_or_zero b ([] : List α) (Or.inl rfl),
        List.getLast?_singleton, Option.map_some', List.length_take]
      by_cases hmod : l.length % b = 0
      · have hlb : l.length = b := by
          rcases le_or_lt b l.length with hge | hlt
          · omega
          · rw [Nat.mod_eq_of_lt hlt] at hmod
            exact absurd hmod hn
        rw [if_pos hmod, hlb, Nat.min_self]
      · have hlt : l.length < b := by
          rcases le_or_lt b l.length with hge | hlt2
          · exfalso
            have heq : l.length = b := by omega
            rw [heq, Nat.mod_self] at hmod
            exact hmod rfl
          · exact hlt2
        rw [if_neg hmod, Nat.mod_eq_of_lt hlt]
        congr 1
        omega
    · have hdn : (l.drop b).length ≠ 0 :=
        fun hz => hd (List.length_eq_zero.mp hz)
      have hble : b ≤ l.length := by
        have := List.length_drop b l
        omega
      have hlend : (List.drop b l).length = l.length - b := List.length_drop b l
      have hrec := toBatches_last b hb (l.drop b)
      rcases ht : toBatches b (l.drop b) with _ | ⟨c0, cs⟩
      · exact absurd ht (by
          rw [toBatches_cons b (l.drop b) hb hd]
          exact fun hx => List.cons_ne_nil _ _ hx)
      · rw [List.getLast?_cons_cons]
        rw [ht, List.length_drop, if_neg (by omega)] at hrec
        have hmodeq : (l.length - b) % b = l.length % b := by
          have h2 : l.length - b + b = l.length := by omega
          calc (l.length - b) % b = (l.length - b + b) % b :=
                (Nat.add_mod_right _ _).symm
            _ = l.length % b := by rw [h2]
        rw [hmodeq] at hrec
        exact hrec
termination_by l.length
decreasing_by
  rw [List.length_drop]
  have hn : l.length ≠ 0 := fun hz => hl (List.length_eq_zero.mp hz)
  omega

-- ### Autograd agreement lemmas

/-- Sum of the dual derivatives of the squared residuals when the
derivative seed is on the intercept `a`. -/
theorem lossDual_der_sum_a (a b : ℚ) (B : Batch) :
    ((B.map fun p =>
      Dual.sq ((Dual.const p.2).sub ((Dual.mk a 1).add
        ((Dual.mk b 0).mul (Dual.const p.1))))).map Dual.der).sum
    = -2 * (B.map fun p => p.2 - yhat a b p.1).sum := by
  induction B with
  | nil => simp
  | cons p t ih =>
      simp only [List.map_cons, List.sum_cons]
      rw [ih]
      simp only [Dual.sq, Dual.mul, Dual.add, Dual.sub, Dual.const, yhat]
      ring

/-- Sum of the dual derivatives of the squared residuals when the
derivative seed is on the slope `b`. -/
theorem lossDual_der_sum_b (a b : ℚ) (B : Batch) :
    ((B.map fun p =>
      Dual.sq ((Dual.const p.2).sub ((Dual.mk a 0).add
        ((Dual.mk b 1).mul (Dual.const p.1))))).map Dual.der).sum
    = -2 * (B.map fun p => p.1 * (p.2 - yhat a b p.1)).sum := by
  induction B with
  | nil => simp
  | cons p t ih =>
      simp only [List.map_cons, List.sum_cons]
      rw [ih]
      simp only [Dual.sq, Dual.mul, Dual.add, Dual.sub, Dual.const, yhat]
      ring

/-- The autograd gradient for `a` coincides with the analytic `a_grad`. -/
theorem autograd_a_eq (a b : ℚ) (B : Batch) :
    autograd_a a b B = a_grad a b B := by
  unfold autograd_a lossDual Dual.listMean
  dsimp only
  unfold a_grad mean errorOf
  rw [lossDual_der_sum_a, List.length_map, List.length_map, List.length_map]
  ring

/-- The autograd gradient for `b` coincides with the analytic `b_grad`. -/
theorem autograd_b_eq (a b : ℚ) (B : Batch) :
    autograd_b a b B = b_grad a b B := by
  unfold autograd_b lossDual Dual.listMean
  dsimp only
  unfold b_grad mean
  rw [lossDual_der_sum_b, List.length_map, List.length_map, List.length_map]
  ring

/-- C2: for every batch and every starting parameter pair, one training
step with the analytic gradients (the NumPy loop) and one training step
with automatic differentiation of the MSE loss (the autograd loop) produce
the same updated parameters, exactly — hence in particular within
tolerance 1e-6. -/
theorem c2_analytic_step_equals_autograd_step (lr a b : ℚ) (B : Batch) :
    numpyStep lr a b B = autogradStep lr a b B ∧
    |(numpyStep lr a b B).1 - (autogradStep lr a b B).1| ≤ 1 / 1000000 ∧
    |(numpyStep lr a b B).2 - (autogradStep lr a b B).2| ≤ 1 / 1000000 := by
  have h : numpyStep lr a b B = autogradStep lr a b B := by
    unfold numpyStep autogradStep
    rw [autograd_a_eq, autograd_b_eq]
  refine ⟨h, ?_, ?_⟩ <;> rw [h, sub_self, abs_zero] <;> norm_num

/-- C3: for every dataset size `N` and split point `k`, splitting any
shuffled permutation of the index range `[0, N)` into a `k`-prefix and the
remaining suffix yields index sets whose lengths sum to `N`, which are
disjoint, and in which every index below `N` appears exactly once (and no
other index appears). -/
theorem c3_split_partition (N k : ℕ) (perm : List ℕ)
    (h : perm.Perm (List.range N)) :
    (splitIndices perm k).1.length + (splitIndices perm k).2.length = N ∧
    (∀ i ∈ (splitIndices perm k).1, i ∉ (splitIndices perm k).2) ∧
    (∀ i, i < N →
      ((splitIndices perm k).1 ++ (splitIndices perm k).2).count i = 1) ∧
    (∀ i, N ≤ i →
      i ∉ (splitIndices perm k).1 ++ (splitIndices perm k).2) := by
  unfold splitIndices
  have happ : perm.take k ++ perm.drop k = perm := List.take_append_drop k perm
  have hlen : perm.length = N := by rw [h.length_eq, List.length_range]
  have hnodup : perm.Nodup := (h.nodup_iff).mpr (List.nodup_range N)
  refine ⟨?_, ?_, ?_, ?_⟩
  · have hl := congrArg List.length happ
    rw [List.length_append] at hl
    rw [hl, hlen]
  · have hnd : (perm.take k ++ perm.drop k).Nodup := by
      rw [happ]
      exact hnodup
    have hdisj := (List.nodup_append.mp hnd).2.2
    exact fun i hi => hdisj hi
  · intro i hi
    rw [happ, h.count_eq]
    exact List.count_eq_one_of_mem (List.nodup_range N) (List.mem_range.mpr hi)
  · intro i hNi hmem
    rw [happ] at hmem
    have hm := (h.mem_iff).mp hmem
    rw [List.mem_range] at hm
    omega

/-- Witness for C3: the permutation `[2, 0, 1]` of `range 3` split at 2. -/
theorem c3_split_partition_witness :
    ([2, 0, 1] : List ℕ).Perm (List.range 3) ∧
    ((splitIndices [2, 0, 1] 2).1.length
        + (splitIndices [2, 0, 1] 2).2.length = 3 ∧
     (∀ i ∈ (splitIndices [2, 0, 1] 2).1, i ∉ (splitIndices [2, 0, 1] 2).2) ∧
     (∀ i, i < 3 →
       ((splitIndices [2, 0, 1] 2).1 ++ (splitIndices [2, 0, 1] 2).2).count i
         = 1) ∧
     (∀ i, 3 ≤ i →
       i ∉ (splitIndices [2, 0, 1] 2).1 ++ (splitIndices [2, 0, 1] 2).2)) :=
  ⟨by decide, c3_split_partition 3 2 [2, 0, 1] (by decide)⟩

/-- C4: for every positive batch size and every shuffled permutation of
the input indices, the concatenation of all batches of one pass is a
permutation of the input indices — every input index keeps its exact
multiplicity, none is dropped or duplicated. -/
theorem c4_batch_coverage (b : ℕ) (hb : 0 < b) (indices p : List ℕ)
    (hp : p.Perm indices) :
    (toBatches b p).flatten.Perm indices ∧
    ∀ i : ℕ, (toBatches b p).flatten.count i = indices.count i := by
  rw [toBatches_flatten b (Nat.pos_iff_ne_zero.mp hb) p]
  exact ⟨hp, fun i => hp.count_eq i⟩

/-- Witness for C4: batch size 2 over the permutation `[3, 1, 2]` of
`[1, 2, 3]`. -/
theorem c4_batch_coverage_witness :
    0 < 2 ∧ ([3, 1, 2] : List ℕ).Perm [1, 2, 3] ∧
    ((toBatches 2 [3, 1, 2]).flatten.Perm [1, 2, 3] ∧
     ∀ i : ℕ, (toBatches 2 [3, 1, 2]).flatten.count i
       = ([1, 2, 3] : List ℕ).count i) :=
  ⟨by decide, by decide,
    c4_batch_coverage 2 (by decide) [1, 2, 3] [3, 1, 2] (by decide)⟩

/-- C5: for every index list of length `n` and positive batch size `b`,
one pass yields exactly `ceil(n / b)` batches; all but possibly the last
have exactly `b` samples; the last has `n mod b` samples, or `b` when `b`
divides `n` evenly (and there is no last batch when `n = 0`). -/
theorem c5_batch_count_and_sizes (b : ℕ) (hb : 0 < b) (l : List ℕ) :
    (toBatches b l).length = (l.length + b - 1) / b ∧
    (∀ c ∈ (toBatches b l).dropLast, c.length = b) ∧
    (toBatches b l).getLast?.map List.length =
      (if l.length = 0 then none
       else if l.length % b = 0 then some b else some (l.length % b)) :=
  ⟨toBatches_length b (Nat.pos_iff_ne_zero.mp hb) l,
   toBatches_middle b (Nat.pos_iff_ne_zero.mp hb) l,
   toBatches_last b (Nat.pos_iff_ne_zero.mp hb) l⟩

/-- Witness for C5: three indices with batch size 2 give two batches, a
full one and a remainder of one. -/
theorem c5_batch_count_and_sizes_witness :
    0 < 2 ∧
    ((toBatches 2 [5, 6, 7]).length
        = (([5, 6, 7] : List ℕ).length + 2 - 1) / 2 ∧
     (∀ c ∈ (toBatches 2 [5, 6, 7]).dropLast, c.length = 2) ∧
     (toBatches 2 [5, 6, 7]).getLast?.map List.length =
       (if ([5, 6, 7] : List ℕ).length = 0 then none
        else if ([5, 6, 7] : List ℕ).length % 2 = 0 then some 2
        else some (([5, 6, 7] : List ℕ).length % 2))) :=
  ⟨by decide, c5_batch_count_and_sizes 2 (by decide) [5, 6, 7]⟩

-- ### Validation and training epoch lemmas

/-- A validation epoch only appends the per-batch losses, computed at the
current parameters, to the val-loss history. -/
theorem epochValidate_spec (bs : List Batch) (s : TState) :
    epochValidate bs s =
      { s with valLosses := s.valLosses ++ bs.map fun B => loss s.a s.b B } := by
  induction bs generalizing s with
  | nil => simp [epochValidate]
  | cons B t ih =>
      show epochValidate t (valStep s B) = _
      rw [ih]
      obtain ⟨sa, sb, st, sv⟩ := s
      simp [valStep, List.append_assoc]

/-- C6: EpochValidate never changes the parameters (nor the train-loss
history), and running it twice from the same state with the same
unshuffled validation batches appends two identical loss sequences. -/
theorem c6_validate_preserves_params (bs : List Batch) (s : TState) :
    (epochValidate bs s).a = s.a ∧ (epochValidate bs s).b = s.b ∧
    (epochValidate bs s).trainLosses = s.trainLosses ∧
    (epochValidate bs (epochValidate bs s)).valLosses =
      s.valLosses ++ (bs.map fun B => loss s.a s.b B)
        ++ (bs.map fun B => loss s.a s.b B) := by
  obtain ⟨sa, sb, st, sv⟩ := s
  simp [epochValidate_spec, List.append_assoc]

/-- A training epoch appends exactly one loss per mini-batch — one
parameter update per batch. -/
theorem epochTrain_losses_length (lr : ℚ) (bs : List Batch) (s : TState) :
    (epochTrain lr bs s).trainLosses.length
      = s.trainLosses.length + bs.length := by
  induction bs generalizing s with
  | nil => simp [epochTrain]
  | cons B t ih =>
      show (epochTrain lr t (trainStep lr s B)).trainLosses.length = _
      rw [ih]
      simp only [trainStep, List.length_append, List.length_cons,
        List.length_nil]
      omega

/-- C9: over a non-empty training partition of `N` samples, one epoch with
batch size 1 performs exactly `N` parameter updates (appends `N` training
losses), and one epoch with batch size `N` performs exactly one update —
both through the same epoch loop. -/
theorem c9_updates_per_epoch (lr : ℚ) (samples : Batch) (s : TState)
    (h : samples ≠ []) :
    (epochTrain lr (toBatches 1 samples) s).trainLosses.length
      = s.trainLosses.length + samples.length ∧
    (epochTrain lr (toBatches samples.length samples) s).trainLosses.length
      = s.trainLosses.length + 1 := by
  have h0 : samples.length ≠ 0 := fun hz => h (List.length_eq_zero.mp hz)
  constructor
  · rw [epochTrain_losses_length, toBatches_length 1 (by omega) samples]
    congr 1
    omega
  · rw [epochTrain_losses_length,
      toBatches_length samples.length h0 samples]
    congr 1
    exact Nat.div_eq_of_lt_le (by omega) (by omega)

/-- Witness for C9: two samples, batch sizes 1 and 2. -/
theorem c9_updates_per_epoch_witness :
    ([((1 : ℚ), 2), (3, 4)] : Batch) ≠ [] ∧
    ((epochTrain 1 (toBatches 1 [((1 : ℚ), 2), (3, 4)])
        ⟨0, 0, [], []⟩).trainLosses.length
      = (⟨0, 0, [], []⟩ : TState).trainLosses.length
        + ([((1 : ℚ), 2), (3, 4)] : Batch).length ∧
     (epochTrain 1 (toBatches ([((1 : ℚ), 2), (3, 4)] : Batch).length
        [((1 : ℚ), 2), (3, 4)]) ⟨0, 0, [], []⟩).trainLosses.length
      = (⟨0, 0, [], []⟩ : TState).trainLosses.length + 1) :=
  ⟨by decide, c9_updates_per_epoch 1 [((1 : ℚ), 2), (3, 4)]
    ⟨0, 0, [], []⟩ (by decide)⟩

/-- C7: two calls of `generate` with the same seed and the same
parameters return bit-identical datasets — the result does not depend on
the prior global RNG state, and a repeated call after the first returns
the same features and labels. -/
theorem c7_generate_deterministic (g1 g2 : RngState) (seed n : ℕ)
    (ti ts ns : ℚ) :
    (generate g1 seed n ti ts ns).1 = (generate g2 seed n ti ts ns).1 ∧
    (generate (generate g1 seed n ti ts ns).2 seed n ti ts ns).1
      = (generate g1 seed n ti ts ns).1 :=
  ⟨rfl, rfl⟩

/-- C8: the batcher fails with an InvalidArgument error exactly when
`batch_size <= 0`, synchronously in its result, and succeeds for every
positive batch size. -/
theorem c8_iterate_rejects_nonpositive_batch_size (indices : List ℕ)
    (bs : ℤ) :
    (iterate indices bs = Except.error "InvalidArgument" ↔ bs ≤ 0) ∧
    ((iterate indices bs).isOk = true ↔ 0 < bs) := by
  unfold iterate
  by_cases h : bs ≤ 0
  · rw [if_pos h]
    refine ⟨⟨fun _ => h, fun _ => rfl⟩, ?_, ?_⟩
    · intro hk
      simp [Except.isOk, Except.toBool] at hk
    · intro hlt
      exact absurd hlt (not_lt.mpr h)
  · rw [if_neg h]
    refine ⟨⟨fun he => ?_, fun hle => absurd hle h⟩, ?_, ?_⟩
    · simp at he
    · intro _
      omega
    · intro _
      rfl

/-- C10: for equal-length tensors `x` and `y`, `CustomDataset x y` is
observationally equivalent to `TensorDataset x y`: the lengths agree and
equal `len(x)`, indexing agrees everywhere, and at every in-range index
the result is exactly the pair `(x[i], y[i])`. -/
theorem c10_customDataset_equiv_tensorDataset (x y : List ℚ)
    (h : x.length = y.length) :
    CustomDataset.len ⟨x, y⟩ = TensorDataset.len ⟨x, y⟩ ∧
    CustomDataset.len ⟨x, y⟩ = x.length ∧
    (∀ i, CustomDataset.getItem ⟨x, y⟩ i = TensorDataset.getItem ⟨x, y⟩ i) ∧
    (∀ i, i < x.length →
      CustomDataset.getItem ⟨x, y⟩ i = some (x.getD i 0, y.getD i 0)) := by
  refine ⟨rfl, rfl, ?_, ?_⟩
  · intro i
    simp only [CustomDataset.getItem, TensorDataset.getItem]
    cases x.get? i <;> cases y.get? i <;> rfl
  · intro i hi
    have hiy : i < y.length := by omega
    simp only [CustomDataset.getItem]
    rw [List.get?_eq_get hi, List.get?_eq_get hiy, List.getD_eq_get?,
      List.getD_eq_get?, List.get?_eq_get hi, List.get?_eq_get hiy]
    rfl

/-- Witness for C10: the two-sample dataset `x = [1, 2]`, `y = [3, 4]`. -/
theorem c10_customDataset_equiv_tensorDataset_witness :
    ([1, 2] : List ℚ).length = ([3, 4] : List ℚ).length ∧
    (CustomDataset.len ⟨[1, 2], [3, 4]⟩
        = TensorDataset.len ⟨[1, 2], [3, 4]⟩ ∧
     CustomDataset.len ⟨[1, 2], [3, 4]⟩ = ([1, 2] : List ℚ).length ∧
     (∀ i, CustomDataset.getItem ⟨[1, 2], [3, 4]⟩ i
        = TensorDataset.getItem ⟨[1, 2], [3, 4]⟩ i) ∧
     (∀ i, i < ([1, 2] : List ℚ).length →
        CustomDataset.getItem ⟨[1, 2], [3, 4]⟩ i
          = some (([1, 2] : List ℚ).getD i 0, ([3, 4] : List ℚ).getD i 0))) :=
  ⟨rfl, c10_customDataset_equiv_tensorDataset [1, 2] [3, 4] rfl⟩
